import Mathlib

/-!
Verification of the dgraph bulkloader pipeline (`cmd/bulkloader/loader.go`)
and the ACL cache (`edgraph` access-control file) against their
natural-language specification.

The concurrent pipeline is embedded as small-step transition systems:
`MapStep` models the map stage (source reader, `rdfCh` input queue, mapper
pool, `postingsCh` output queue, spill writer, and the orchestrator's
close/join sequence in `mapStage`), and `RedStep` models the reduce stage
(`reduceCh` batch queue of capacity 3, the `pending` token channel of
capacity `numGoroutines`, and the reducer workers spawned by `reduceStage`).
Pure parts (`cleanup`, the gzip/suffix branch, `authorizePredicate`,
`aclCache.update`) are embedded as Lean functions.
-/

namespace Bulkloader

/-- Capacity of `rdfCh` in `newLoader`: `make(chan string, 1000)`. -/
def rdfChCap : Nat := 1000

/-- Capacity of `reduceCh` in `reduceStage`:
`make(chan []*protos.FlatPosting, 3)`. -/
def reduceChCap : Nat := 3

/-! Map stage transition system

State of the map stage.  `src` is the list of lines the scanner has not yet
read; `queue` models the contents of `rdfCh` (a FIFO channel); `consumed`
records, in dequeue order, which mapper worker received which line;
`alive` is the set of mapper goroutines that have not yet returned from
`m.run()`; `pc` is the orchestrator's position inside `mapStage`;
`closedOut` models `close(ld.postingsCh)` and `writerDone` the spill-writer
goroutine having finished `writeMapOutput` (it drains `postingsCh` until
that channel is closed). -/

inductive MPc where
  | feeding      -- inside the `for i := 0; sc.Scan(); i++` loop
  | waitMappers  -- after `close(ld.rdfCh)`, at `mapperWg.Wait()`
  | waitWriter   -- after `close(ld.postingsCh)`, at `postingWriterWg.Wait()`
  | done         -- `mapStage` has returned
deriving DecidableEq, Repr

structure MapState where
  src        : List String
  queue      : List String
  closedIn   : Bool
  consumed   : List (Nat × String)
  alive      : List Nat
  pc         : MPc
  closedOut  : Bool
  writerDone : Bool
deriving DecidableEq, Repr

/-- Initial map-stage state for worker-pool width `W` and source lines
`lines`: nothing enqueued, all `W` mappers running, orchestrator feeding. -/
def mapInit (W : Nat) (lines : List String) : MapState :=
  ⟨lines, [], false, [], List.range W, .feeding, false, false⟩

/-- One step of the map stage.  Each constructor corresponds to an atomic
action of one task in `mapStage` / `mapper.run`. -/
inductive MapStep (W : Nat) : MapState → MapState → Prop
  /-- The scanner loop sends the next line on `rdfCh`
  (blocks unless the buffer has room). -/
  | feed (s : MapState) (l : String) (rest : List String) :
      s.pc = .feeding → s.src = l :: rest → s.queue.length < rdfChCap →
      MapStep W s { s with src := rest, queue := s.queue ++ [l] }
  /-- Source exhausted: `close(ld.rdfCh)`, move to `mapperWg.Wait()`. -/
  | closeInput (s : MapState) :
      s.pc = .feeding → s.src = [] →
      MapStep W s { s with closedIn := true, pc := .waitMappers }
  /-- Mapper `i` receives one record from `rdfCh`
  (`for rdf := range ld.rdfCh`). -/
  | take (s : MapState) (i : Nat) (l : String) (rest : List String) :
      i ∈ s.alive → s.queue = l :: rest →
      MapStep W s { s with queue := rest, consumed := s.consumed ++ [(i, l)] }
  /-- Mapper `i`'s range loop ends: `rdfCh` is closed and drained, so
  `m.run()` returns and `mapperWg.Done()` runs. -/
  | exitMapper (s : MapState) (i : Nat) :
      i ∈ s.alive → s.closedIn = true → s.queue = [] →
      MapStep W s { s with alive := s.alive.erase i }
  /-- The join `mapperWg.Wait()` returns (all mappers exited); `close(ld.postingsCh)`,
  move to `postingWriterWg.Wait()`. -/
  | closeOutput (s : MapState) :
      s.pc = .waitMappers → s.alive = [] →
      MapStep W s { s with closedOut := true, pc := .waitWriter }
  /-- The spill-writer goroutine finishes `writeMapOutput` (it can only
  return once `postingsCh` is closed) and calls `postingWriterWg.Done()`. -/
  | exitWriter (s : MapState) :
      s.closedOut = true → s.writerDone = false →
      MapStep W s { s with writerDone := true }
  /-- The join `postingWriterWg.Wait()` returns: `mapStage` returns with the run
  list captured in `ld.mapOutput`. -/
  | joinWriter (s : MapState) :
      s.pc = .waitWriter → s.writerDone = true →
      MapStep W s { s with pc := .done }

/-- States reachable by the map stage from `mapInit W lines`. -/
def MapReach (W : Nat) (lines : List String) : MapState → Prop :=
  Relation.ReflTransGen (MapStep W) (mapInit W lines)

/-- The inductive invariant of the map stage. -/
structure MapInv (W : Nat) (lines : List String) (s : MapState) : Prop where
  accounting : s.consumed.map Prod.snd ++ s.queue ++ s.src = lines
  closed_iff : s.closedIn = true ↔ s.pc ≠ .feeding
  closed_src : s.closedIn = true → s.src = []
  alive_sub : ∀ i ∈ s.alive, i < W
  alive_nodup : s.alive.Nodup
  alive_ne : s.closedIn = false → 0 < W → s.alive ≠ []
  drained : 0 < W → s.closedIn = true → s.alive = [] → s.queue = []
  out_pc : s.closedOut = true ↔ (s.pc = .waitWriter ∨ s.pc = .done)
  out_alive : s.closedOut = true → s.alive = []
  writer_out : s.writerDone = true → s.closedOut = true
  done_writer : s.pc = .done → s.writerDone = true
  consumed_sub : ∀ p ∈ s.consumed, p.1 < W

theorem mapInv_init (W : Nat) (lines : List String) :
    MapInv W lines (mapInit W lines) := by
  refine ⟨by simp [mapInit], by simp [mapInit], by simp [mapInit],
    ?_, ?_, ?_, by simp [mapInit], by simp [mapInit], by simp [mapInit],
    by simp [mapInit], by simp [mapInit], by simp [mapInit]⟩
  · intro i hi
    exact List.mem_range.mp hi
  · exact List.nodup_range W
  · intro _ hW
    simp only [mapInit, ne_eq, List.range_eq_nil]
    omega

theorem mapInv_step (W : Nat) (lines : List String) (s t : MapState)
    (hs : MapInv W lines s) (hst : MapStep W s t) : MapInv W lines t := by
  obtain ⟨h1, h2, h3, h4, h5, h6, h7, h8, h9, h10, h11, h12⟩ := hs
  cases hst with
  | feed l rest hpc hsrc hq =>
      refine ⟨?_, h2, ?_, h4, h5, h6, ?_, h8, h9, h10, h11, h12⟩
      · show s.consumed.map Prod.snd ++ (s.queue ++ [l]) ++ rest = lines
        rw [hsrc] at h1
        simpa [List.append_assoc] using h1
      · intro hc
        exact absurd (h2.mp hc) (by simp [hpc])
      · intro _ hc
        exact absurd (h2.mp hc) (by simp [hpc])
  | closeInput hpc hsrc =>
      have hcf : s.closedIn = false := by
        cases hcl : s.closedIn
        · rfl
        · exact absurd (h2.mp hcl) (by simp [hpc])
      refine ⟨h1, by simp, fun _ => hsrc, h4, h5, ?_, ?_, ?_, h9, h10, ?_, h12⟩
      · intro h
        exact absurd h (by simp)
      · intro hW _ halive
        exact absurd halive (h6 hcf hW)
      · constructor
        · intro h
          rcases h8.mp h with h' | h' <;> rw [hpc] at h' <;> exact MPc.noConfusion h'
        · rintro (h' | h') <;> exact MPc.noConfusion h'
      · intro h
        exact MPc.noConfusion h
  | take i l rest hi hq =>
      refine ⟨?_, h2, h3, h4, h5, h6, ?_, h8, h9, h10, h11, ?_⟩
      · show (s.consumed ++ [(i, l)]).map Prod.snd ++ rest ++ s.src = lines
        rw [hq] at h1
        simpa [List.append_assoc] using h1
      · intro _ _ halive
        rw [halive] at hi
        exact absurd hi (List.not_mem_nil i)
      · intro p hp
        rcases List.mem_append.mp hp with hp' | hp'
        · exact h12 p hp'
        · rw [List.mem_singleton.mp hp']
          exact h4 i hi
  | exitMapper i hi hc hq =>
      refine ⟨h1, h2, h3, ?_, h5.erase i, ?_, fun _ _ _ => hq, h8, ?_, h10, h11, h12⟩
      · intro j hj
        exact h4 j (List.mem_of_mem_erase hj)
      · intro h
        rw [h] at hc
        exact Bool.noConfusion hc
      · intro h
        rw [h9 h]
        rfl
  | closeOutput hpc halive =>
      have hcI : s.closedIn = true := h2.mpr (by rw [hpc]; exact fun h => MPc.noConfusion h)
      refine ⟨h1, ⟨fun _ => by simp, fun _ => hcI⟩, h3, h4, h5, ?_, ?_, ?_,
        fun _ => halive, fun _ => rfl, ?_, h12⟩
      · intro h
        rw [h] at hcI
        exact Bool.noConfusion hcI
      · intro hW _ hal
        exact h7 hW hcI halive
      · exact ⟨fun _ => Or.inl rfl, fun _ => rfl⟩
      · intro h
        exact MPc.noConfusion h
  | exitWriter hco hwd =>
      exact ⟨h1, h2, h3, h4, h5, h6, h7, h8, h9, fun _ => hco, fun _ => rfl, h12⟩
  | joinWriter hpc hwd =>
      have hcI : s.closedIn = true := h2.mpr (by rw [hpc]; exact fun h => MPc.noConfusion h)
      have hcO : s.closedOut = true := h8.mpr (Or.inl hpc)
      refine ⟨h1, ⟨fun _ => by simp, fun _ => hcI⟩, h3, h4, h5, ?_, h7,
        ⟨fun _ => Or.inr rfl, fun _ => hcO⟩, h9, h10, fun _ => hwd, h12⟩
      intro h
      rw [h] at hcI
      exact Bool.noConfusion hcI

theorem mapInv_reach (W : Nat) (lines : List String) (s : MapState)
    (h : MapReach W lines s) : MapInv W lines s := by
  induction h with
  | refl => exact mapInv_init W lines
  | tail _ hstep ih => exact mapInv_step W lines _ _ ih hstep

/-- A complete map-stage execution for width 1 and the single-line source
`["a"]`, ending in the state where `mapStage` has returned. -/
def mapFinal : MapState :=
  ⟨[], [], true, [(0, "a")], [], .done, true, true⟩

theorem mapFinal_reach : MapReach 1 ["a"] mapFinal := by
  have h0 : MapReach 1 ["a"] (mapInit 1 ["a"]) := .refl
  have h1 := h0.tail (MapStep.feed _ "a" [] rfl rfl (by decide))
  have h2 := h1.tail (MapStep.closeInput _ rfl rfl)
  have h3 := h2.tail (MapStep.take _ 0 "a" [] (by decide) rfl)
  have h4 := h3.tail (MapStep.exitMapper _ 0 (by decide) rfl rfl)
  have h5 := h4.tail (MapStep.closeOutput _ rfl (by decide))
  have h6 := h5.tail (MapStep.exitWriter _ rfl rfl)
  exact h6.tail (MapStep.joinWriter _ rfl rfl)

/-- C1: For every finite source, once `mapStage` has run to completion
(`pc = done`), the list of records consumed by the mapper pool — in
consumption order, each tagged with the single mapper worker that received
it from `rdfCh` — is exactly the list of source lines: every line was
enqueued once and consumed by exactly one mapper, with no loss and no
duplication, so the total number of records observed equals the number of
lines. -/
theorem mapStage_records_exactly_once (W : Nat) (lines : List String)
    (s : MapState) (hW : 0 < W) (h : MapReach W lines s)
    (hdone : s.pc = .done) :
    s.consumed.map Prod.snd = lines ∧ s.consumed.length = lines.length := by
  have inv := mapInv_reach W lines s h
  have hcI : s.closedIn = true :=
    inv.closed_iff.mpr (by rw [hdone]; exact fun h' => MPc.noConfusion h')
  have hsrc : s.src = [] := inv.closed_src hcI
  have halive : s.alive = [] := inv.out_alive (inv.out_pc.mpr (Or.inr hdone))
  have hq : s.queue = [] := inv.drained hW hcI halive
  have acc := inv.accounting
  rw [hsrc, hq] at acc
  simp only [List.append_nil] at acc
  exact ⟨acc, by rw [← acc]; simp⟩

theorem mapStage_records_exactly_once_witness :
    mapFinal.consumed.map Prod.snd = ["a"] ∧
      mapFinal.consumed.length = (["a"] : List String).length :=
  mapStage_records_exactly_once 1 ["a"] mapFinal (by decide) mapFinal_reach rfl

/-- C4: Map-phase termination order, as state invariants over every
reachable map-stage state: the input queue is closed only after the source
is exhausted; the output queue is closed only after every mapper worker has
exited (and the input queue was closed); the spill writer finishes only
after the output queue is closed; and `mapStage` returns (`pc = done` —
the point at which the reduce phase may begin) only after the writer join
barrier has fully resolved: writer joined, output closed, all mappers
joined, input closed, source exhausted. -/
theorem mapStage_phase_ordering (W : Nat) (lines : List String)
    (s : MapState) (h : MapReach W lines s) :
    (s.closedIn = true → s.src = []) ∧
    (s.closedOut = true → s.alive = [] ∧ s.closedIn = true) ∧
    (s.writerDone = true → s.closedOut = true) ∧
    (s.pc = .done → s.writerDone = true ∧ s.closedOut = true ∧
      s.alive = [] ∧ s.closedIn = true ∧ s.src = []) := by
  have inv := mapInv_reach W lines s h
  have hoc : s.closedOut = true → s.closedIn = true := by
    intro hco
    refine inv.closed_iff.mpr ?_
    rcases inv.out_pc.mp hco with h' | h' <;> rw [h'] <;>
      exact fun h'' => MPc.noConfusion h''
  refine ⟨inv.closed_src, fun hco => ⟨inv.out_alive hco, hoc hco⟩,
    inv.writer_out, fun hdone => ?_⟩
  have hwd := inv.done_writer hdone
  have hco := inv.writer_out hwd
  exact ⟨hwd, hco, inv.out_alive hco, hoc hco, inv.closed_src (hoc hco)⟩

theorem mapStage_phase_ordering_witness :
    mapFinal.src = [] ∧ mapFinal.alive = [] ∧ mapFinal.closedOut = true ∧
      mapFinal.writerDone = true := by
  have h := mapStage_phase_ordering 1 ["a"] mapFinal mapFinal_reach
  exact ⟨h.1 rfl, (h.2.1 rfl).1, h.2.2.1 rfl, (h.2.2.2 rfl).1⟩

/-! Reduce stage transition system

`reduceStage` drives batches from `reduceCh` (capacity 3, fed by
`shufflePostings`) through a dispatcher loop that, per batch, sends a token
on the `pending` channel (capacity `numGoroutines`) and spawns a worker
goroutine running `reduce(batch, ld.prog); <-pending; reduceWg.Done()`.
Batch contents are irrelevant to the claims, so workers are tracked by
counts.  A worker whose `reduce` call panics is tracked in `nCrash`: the
body has no `defer`/`recover`, so a panicking worker never executes
`<-pending` (in Go the unrecovered panic then kills the whole process). -/

inductive DPc where
  | loop     -- at `for batch := range reduceCh`
  | acquire  -- received a batch, at `pending <- struct{}{}`
  | wait     -- range loop ended, at `reduceWg.Wait()`
  | done     -- `reduceWg.Wait()` returned
deriving DecidableEq, Repr

structure RedState where
  toEmit : Nat   -- batches `shufflePostings` has yet to send on reduceCh
  qlen   : Nat   -- batches currently buffered in reduceCh
  closed : Bool  -- reduceCh closed by the shuffler
  dpc    : DPc
  tokens : Nat   -- tokens currently held in the `pending` channel
  nPre   : Nat   -- workers spawned, not yet inside `reduce`
  nRed   : Nat   -- workers currently executing `reduce`
  nPost  : Nat   -- workers returned from `reduce`, before `<-pending`
  nDone  : Nat   -- workers that released their token and exited
  nCrash : Nat   -- workers whose `reduce` call panicked (token never freed)
deriving DecidableEq, Repr

/-- Initial reduce-stage state: the shuffler will emit `B` batches. -/
def redInit (B : Nat) : RedState :=
  ⟨B, 0, false, .loop, 0, 0, 0, 0, 0, 0⟩

/-- One step of the reduce stage. -/
inductive RedStep (W : Nat) : RedState → RedState → Prop
  /-- The shuffler sends a batch on `reduceCh`
  (blocks unless the 3-slot buffer has room). -/
  | emit (s : RedState) :
      0 < s.toEmit → s.qlen < reduceChCap →
      RedStep W s { s with toEmit := s.toEmit - 1, qlen := s.qlen + 1 }
  /-- The shuffler closes `reduceCh` after emitting its last batch. -/
  | closeQ (s : RedState) :
      s.toEmit = 0 → s.closed = false →
      RedStep W s { s with closed := true }
  /-- The dispatcher's `range reduceCh` receives one batch. -/
  | recv (s : RedState) :
      s.dpc = .loop → 0 < s.qlen →
      RedStep W s { s with qlen := s.qlen - 1, dpc := .acquire }
  /-- With `reduceCh` closed and drained, the range loop ends and the
  dispatcher falls through to `reduceWg.Wait()`. -/
  | exitLoop (s : RedState) :
      s.dpc = .loop → s.qlen = 0 → s.closed = true →
      RedStep W s { s with dpc := .wait }
  /-- The send `pending <- struct{}{}` succeeds (blocks while all `W` tokens are
  outstanding), then `reduceWg.Add(1)` and the `go func` spawn. -/
  | acq (s : RedState) :
      s.dpc = .acquire → s.tokens < W →
      RedStep W s { s with tokens := s.tokens + 1, nPre := s.nPre + 1,
                           dpc := .loop }
  /-- A spawned worker enters the `reduce(batch, ld.prog)` call. -/
  | startRed (s : RedState) :
      0 < s.nPre →
      RedStep W s { s with nPre := s.nPre - 1, nRed := s.nRed + 1 }
  /-- The aggregator call returns normally. -/
  | finishRed (s : RedState) :
      0 < s.nRed →
      RedStep W s { s with nRed := s.nRed - 1, nPost := s.nPost + 1 }
  /-- The aggregator call panics: with no `defer` in the worker body the
  statements after `reduce` never run, so the token stays in `pending`. -/
  | crashRed (s : RedState) :
      0 < s.nRed →
      RedStep W s { s with nRed := s.nRed - 1, nCrash := s.nCrash + 1 }
  /-- The statements `<-pending; reduceWg.Done()`: a normally-finished worker releases
  its token and exits. -/
  | release (s : RedState) :
      0 < s.nPost → 0 < s.tokens →
      RedStep W s { s with nPost := s.nPost - 1, tokens := s.tokens - 1,
                           nDone := s.nDone + 1 }
  /-- The join `reduceWg.Wait()` returns: every `Add` was matched by a `Done`. -/
  | joinWg (s : RedState) :
      s.dpc = .wait → s.nPre = 0 → s.nRed = 0 → s.nPost = 0 → s.nCrash = 0 →
      RedStep W s { s with dpc := .done }

/-- States reachable by the reduce stage from `redInit B`. -/
def RedReach (W B : Nat) : RedState → Prop :=
  Relation.ReflTransGen (RedStep W) (redInit B)

/-- The inductive invariant of the reduce stage: outstanding tokens
account exactly for the workers that have acquired and not released, and
never exceed the pool width `W`; the batch queue never holds more than
`reduceChCap` batches. -/
structure RedInv (W : Nat) (s : RedState) : Prop where
  tokens_eq : s.tokens = s.nPre + s.nRed + s.nPost + s.nCrash
  tokens_le : s.tokens ≤ W
  q_le : s.qlen ≤ reduceChCap
  done_crash : s.dpc = .done → s.nPre = 0 ∧ s.nRed = 0 ∧ s.nPost = 0 ∧
    s.nCrash = 0

theorem redInv_init (W B : Nat) : RedInv W (redInit B) := by
  refine ⟨rfl, Nat.zero_le W, by simp [redInit, reduceChCap], by simp [redInit]⟩

theorem redInv_step (W : Nat) (s t : RedState) (hs : RedInv W s)
    (hst : RedStep W s t) : RedInv W t := by
  obtain ⟨h1, h2, h3, h4⟩ := hs
  cases hst with
  | emit he hq => exact ⟨h1, h2, by dsimp only; omega, h4⟩
  | closeQ he hc => exact ⟨h1, h2, h3, h4⟩
  | recv hd hq =>
      exact ⟨h1, h2, by dsimp only; omega, fun h => DPc.noConfusion h⟩
  | exitLoop hd hq hc => exact ⟨h1, h2, h3, fun h => DPc.noConfusion h⟩
  | acq hd ht =>
      exact ⟨by dsimp only; omega, by dsimp only; omega, h3,
        fun h => DPc.noConfusion h⟩
  | startRed hn => exact ⟨by dsimp only; omega, h2, h3, fun h => by
      obtain ⟨a, b, c, d⟩ := h4 h; dsimp only; omega⟩
  | finishRed hn => exact ⟨by dsimp only; omega, h2, h3, fun h => by
      obtain ⟨a, b, c, d⟩ := h4 h; dsimp only; omega⟩
  | crashRed hn => exact ⟨by dsimp only; omega, h2, h3, fun h => by
      obtain ⟨a, b, c, d⟩ := h4 h; dsimp only; omega⟩
  | release hn ht => exact ⟨by dsimp only; omega, by dsimp only; omega, h3,
      fun h => by obtain ⟨a, b, c, d⟩ := h4 h; dsimp only; omega⟩
  | joinWg hd ha hb hc hcr => exact ⟨h1, h2, h3, fun _ => ⟨ha, hb, hc, hcr⟩⟩

theorem redInv_reach (W B : Nat) (s : RedState) (h : RedReach W B s) :
    RedInv W s := by
  induction h with
  | refl => exact redInv_init W B
  | tail _ hstep ih => exact redInv_step W _ _ ih hstep

/-- C2: In every state reachable by the reduce stage — for every pool
width `W`, every number `B` of batches produced by the merger, and every
interleaving of the shuffler, the dispatcher and the reducer workers — the
number of tokens outstanding in the `pending` channel is at most `W`, and
consequently the number of simultaneously active aggregator (`reduce`)
invocations is at most `W`. -/
theorem reduceStage_limiter_bound (W B : Nat) (s : RedState)
    (h : RedReach W B s) : s.tokens ≤ W ∧ s.nRed ≤ W := by
  have inv := redInv_reach W B s h
  refine ⟨inv.tokens_le, ?_⟩
  have := inv.tokens_eq
  have := inv.tokens_le
  omega

theorem reduceStage_limiter_bound_witness :
    (redInit 10).tokens ≤ 2 ∧ (redInit 10).nRed ≤ 2 :=
  reduceStage_limiter_bound 2 10 (redInit 10) Relation.ReflTransGen.refl

/-- Reduce-stage state reached (with `W = 1`, one batch) after the single
reducer worker's `reduce` call panics: the worker has exited by its panic
path, no worker is active any more, yet the limiter token is still in
`pending` and no release ever happened. -/
def redCrash : RedState :=
  ⟨0, 0, true, .wait, 1, 0, 0, 0, 0, 1⟩

theorem redCrash_reach : RedReach 1 1 redCrash := by
  have h0 : RedReach 1 1 (redInit 1) := .refl
  have h1 := h0.tail (RedStep.emit _ (by decide) (by decide))
  have h2 := h1.tail (RedStep.closeQ _ rfl rfl)
  have h3 := h2.tail (RedStep.recv _ rfl (by decide))
  have h4 := h3.tail (RedStep.acq _ rfl (by decide))
  have h5 := h4.tail (RedStep.exitLoop _ rfl rfl rfl)
  have h6 := h5.tail (RedStep.startRed _ (by decide))
  exact h6.tail (RedStep.crashRed _ (by decide))

/-- C3, counterexample: The claim fails on the code: the reducer
worker body `go func() { reduce(batch, ld.prog); <-pending;
reduceWg.Done() }()` contains no `defer`, so when the aggregator call
panics the receive from `pending` never executes.  Concretely, with a
width-1 pool and one batch there is a reachable state in which the only
spawned worker has exited via the panic path (`nCrash = 1`, no worker
active), yet its token is still outstanding (`tokens = 1`) and no release
ever happened (`nDone = 0`); since no worker remains to execute
`<-pending`, the token is held forever. -/
theorem reduceStage_token_leak_on_panic :
    RedReach 1 1 redCrash ∧ redCrash.tokens = 1 ∧ redCrash.nCrash = 1 ∧
      redCrash.nPre = 0 ∧ redCrash.nRed = 0 ∧ redCrash.nPost = 0 ∧
      redCrash.nDone = 0 :=
  ⟨redCrash_reach, rfl, rfl, rfl, rfl, rfl, rfl⟩

/-- C3, amended: Tokens are released on every *normal* exit path: in
every reachable reduce-stage state the outstanding tokens are exactly those
of the workers that are still active or that crashed (so every worker that
ran to completion did release its token), and when the reduce phase
completes (`reduceWg.Wait()` returns, which requires that no worker
panicked) every acquired token has been released.  A panicking aggregator
skips the release — the unrecovered panic then terminates the whole
process. -/
theorem reduceStage_token_release_normal_paths (W B : Nat) (s : RedState)
    (h : RedReach W B s) :
    s.tokens = s.nPre + s.nRed + s.nPost + s.nCrash ∧
      (s.dpc = .done → s.tokens = 0) := by
  have inv := redInv_reach W B s h
  refine ⟨inv.tokens_eq, fun hd => ?_⟩
  obtain ⟨a, b, c, d⟩ := inv.done_crash hd
  have := inv.tokens_eq
  omega

/-- A complete reduce-stage execution with no batches (`B = 0`): the
shuffler closes `reduceCh` immediately, the dispatcher's loop exits and
`reduceWg.Wait()` returns. -/
def redDone : RedState :=
  ⟨0, 0, true, .done, 0, 0, 0, 0, 0, 0⟩

theorem redDone_reach : RedReach 1 0 redDone := by
  have h0 : RedReach 1 0 (redInit 0) := .refl
  have h1 := h0.tail (RedStep.closeQ _ rfl rfl)
  have h2 := h1.tail (RedStep.exitLoop _ rfl rfl rfl)
  exact h2.tail (RedStep.joinWg _ rfl rfl rfl rfl rfl)

theorem reduceStage_token_release_normal_paths_witness :
    redDone.tokens = redDone.nPre + redDone.nRed + redDone.nPost +
        redDone.nCrash ∧ redDone.tokens = 0 := by
  have h := reduceStage_token_release_normal_paths 1 0 redDone redDone_reach
  exact ⟨h.1, h.2 rfl⟩

/-- C8: The batch queue `reduceCh` connecting the merger
(`shufflePostings`) to the reducer pool has the fixed constant capacity 3:
in every reachable reduce-stage state at most 3 batches are buffered, and
any step that adds a batch to the queue (the merger's send) is enabled
only when fewer than 3 batches are buffered — with 3 complete batches
outstanding the merger's send blocks. -/
theorem reduceStage_batch_queue_capacity :
    reduceChCap = 3 ∧
      (∀ W B s, RedReach W B s → s.qlen ≤ 3) ∧
      (∀ W s t, RedStep W s t → s.qlen < t.qlen → s.qlen < 3) := by
  refine ⟨rfl, fun W B s h => ?_, fun W s t hst hlt => ?_⟩
  · exact (redInv_reach W B s h).q_le
  · cases hst with
    | emit he hq => simpa [reduceChCap] using hq
    | closeQ he hc => dsimp only at hlt; omega
    | recv hd hq => dsimp only at hlt; omega
    | exitLoop hd hq hc => dsimp only at hlt; omega
    | acq hd ht => dsimp only at hlt; omega
    | startRed hn => dsimp only at hlt; omega
    | finishRed hn => dsimp only at hlt; omega
    | crashRed hn => dsimp only at hlt; omega
    | release hn ht => dsimp only at hlt; omega
    | joinWg hd ha hb hc hcr => dsimp only at hlt; omega

theorem reduceStage_batch_queue_capacity_witness :
    (redInit 10).qlen ≤ 3 ∧ reduceChCap = 3 := by
  have h := reduceStage_batch_queue_capacity
  exact ⟨h.2.1 2 10 (redInit 10) Relation.ReflTransGen.refl, h.1⟩

/-! Cleanup (`loader.cleanup`)

The filesystem is modelled as the list of existing paths, a path being its
list of components. -/

/-- A filesystem path, as its list of components. -/
abbrev FsPath := List String

/-- Model of `filepath.Dir`: the directory containing a path. -/
def filepathDir (p : FsPath) : FsPath := p.dropLast

/-- Model of `os.RemoveAll(dir)`: removes `dir` and everything below it; paths
outside the `dir` subtree are untouched. -/
def removeAll (fs : List FsPath) (dir : FsPath) : List FsPath :=
  fs.filter (fun p => !dir.isPrefixOf p)

/-- Model of `loader.cleanup`:
`if len(ld.mapOutput) > 0 { dir := filepath.Dir(ld.mapOutput[0]);
x.Check(os.RemoveAll(dir)) }` — when at least one run file was produced,
the directory holding the first run file is removed recursively; with an
empty run list nothing is removed. -/
def cleanup (mapOutput : List FsPath) (fs : List FsPath) : List FsPath :=
  match mapOutput with
  | [] => fs
  | p0 :: _ => removeAll fs (filepathDir p0)

/-- C5: the function `cleanup` with a non-empty run list removes exactly the subtree
of the temporary directory holding the first run file: a path survives iff
it was present and is not under that directory (in particular the run file
itself, and the directory, are gone).  With an empty run list no deletion
is attempted: the filesystem — temporary directory included — is returned
unchanged. -/
theorem cleanup_tmpdir (p0 : FsPath) (rest fs : List FsPath) (q : FsPath) :
    (q ∈ cleanup (p0 :: rest) fs ↔
      q ∈ fs ∧ (filepathDir p0).isPrefixOf q = false) ∧
    p0 ∉ cleanup (p0 :: rest) fs ∧
    cleanup [] fs = fs := by
  refine ⟨?_, ?_, rfl⟩
  · simp [cleanup, removeAll, List.mem_filter]
  · simp only [cleanup, removeAll, List.mem_filter, not_and]
    intro _
    simp only [Bool.not_eq_true', Bool.not_eq_false]
    exact List.isPrefixOf_iff_prefix.mpr ( List.dropLast_prefix p0)

theorem cleanup_tmpdir_witness :
    ["other"] ∈ cleanup [["tmp", "r1"]]
      [["tmp"], ["tmp", "r1"], ["other"]] ∧
    cleanup [] [["tmp"]] = [["tmp"]] := by
  have h := cleanup_tmpdir ["tmp", "r1"] []
    [["tmp"], ["tmp", "r1"], ["other"]] ["other"]
  have h' := cleanup_tmpdir ["tmp", "r1"] [] [["tmp"]] ["other"]
  exact ⟨h.1.mpr (by decide), h'.2.2⟩

/-! Setup failures (`newLoader` and the head of `mapStage`)

The fallible setup calls and the worker-start points of `newLoader` and
`mapStage` are laid out as an event trace in program order:
`ioutil.ReadFile(schemaFile)` and `schema.Parse` (in `newLoader`, both
under `x.Checkf`), then in `mapStage`: `ioutil.TempDir`, the
`go func() { writeMapOutput ... }` spill-writer spawn, `os.Open(rdfFile)`
(under `x.Checkf`), the mapper-goroutine spawns, `gzip.NewReader` (only
for a `.gz` path, under `x.Checkf`), then the scanner loop sending each
line.  `x.Checkf` on a failure terminates the process, cutting the trace
at that point. -/

inductive SetupErr where
  | schemaRead | schemaParse | sourceOpen | gzipInit
deriving DecidableEq, Repr

inductive LoaderEv where
  | schemaLoaded
  | schemaParsed
  | tmpDirCreated
  | startSpillWriter
  | sourceOpened
  | startMapper
  | gzipReady
  | enqueue (line : String)
  | fatal (e : SetupErr)
deriving DecidableEq, Repr

/-- The event trace of `newLoader` followed by `mapStage`, for a given
outcome of each fallible setup call (`true` = succeeds) and for a source
path with or without the `.gz` suffix. -/
def loaderSetupEvents (schemaReadOk schemaParseOk sourceOpenOk gzOk : Bool)
    (gzSuffix : Bool) (W : Nat) (lines : List String) : List LoaderEv :=
  if !schemaReadOk then [.fatal .schemaRead]
  else .schemaLoaded ::
    (if !schemaParseOk then [.fatal .schemaParse]
     else .schemaParsed :: .tmpDirCreated :: .startSpillWriter ::
       (if !sourceOpenOk then [.fatal .sourceOpen]
        else .sourceOpened ::
          (List.replicate W .startMapper ++
            (if gzSuffix then
               (if !gzOk then [.fatal .gzipInit]
                else .gzipReady :: lines.map .enqueue)
             else lines.map .enqueue))))

/-- C6, counterexample: The claim fails on the code: in `mapStage` the
spill-writer goroutine is spawned *before* `os.Open(ld.opt.rdfFile)` is
checked, so an unreadable source aborts the pipeline only after the Spill
Writer worker has already started.  Concretely, with the schema readable
and parseable but the source unreadable, the trace contains
`startSpillWriter` ahead of the fatal abort. -/
theorem loader_setup_failure_counterexample :
    loaderSetupEvents true true false true false 2 ["x"] =
      [.schemaLoaded, .schemaParsed, .tmpDirCreated, .startSpillWriter,
        .fatal .sourceOpen] ∧
    LoaderEv.startSpillWriter ∈
      loaderSetupEvents true true false true false 2 ["x"] := by
  constructor <;> decide

/-- C6, amended: Every setup failure is fatal and cuts the trace at the
point of failure, before any record is enqueued; but only the schema
failures (in `newLoader`) abort before any worker task has started.  The
failing traces are, exactly: schema unreadable → abort with nothing
started; schema unparseable → abort with nothing started; source
unreadable → abort after the Spill Writer spawn but before any mapper
spawn; decompressor (gzip) failure → abort after both the Spill Writer
and all `W` mapper workers have started.  No failing trace contains an
`enqueue` event. -/
theorem loader_setup_failure_ordering (sr sp so gz gzSuffix : Bool)
    (W : Nat) (lines : List String) :
    (sr = false →
      loaderSetupEvents sr sp so gz gzSuffix W lines =
        [.fatal .schemaRead]) ∧
    (sr = true → sp = false →
      loaderSetupEvents sr sp so gz gzSuffix W lines =
        [.schemaLoaded, .fatal .schemaParse]) ∧
    (sr = true → sp = true → so = false →
      loaderSetupEvents sr sp so gz gzSuffix W lines =
        [.schemaLoaded, .schemaParsed, .tmpDirCreated, .startSpillWriter,
          .fatal .sourceOpen]) ∧
    (sr = true → sp = true → so = true → gzSuffix = true → gz = false →
      loaderSetupEvents sr sp so gz gzSuffix W lines =
        [.schemaLoaded, .schemaParsed, .tmpDirCreated, .startSpillWriter,
          .sourceOpened] ++ List.replicate W .startMapper ++
          [.fatal .gzipInit]) := by
  refine ⟨?_, ?_, ?_, ?_⟩
  · rintro rfl
    simp [loaderSetupEvents]
  · rintro rfl rfl
    simp [loaderSetupEvents]
  · rintro rfl rfl rfl
    simp [loaderSetupEvents]
  · rintro rfl rfl rfl rfl rfl
    simp [loaderSetupEvents]

theorem loader_setup_failure_ordering_witness :
    loaderSetupEvents true true true false true 2 ["x", "y"] =
      [.schemaLoaded, .schemaParsed, .tmpDirCreated, .startSpillWriter,
        .sourceOpened] ++ List.replicate 2 .startMapper ++
        [.fatal .gzipInit] :=
  (loader_setup_failure_ordering true true true false true 2
    ["x", "y"]).2.2.2 rfl rfl rfl rfl rfl

/-! Source reading (`mapStage` scanner setup)

`bufio.Scanner` with the default `ScanLines` split: lines are separated by
`'\n'`, one trailing `'\r'` is stripped from each line, a final unterminated
line is still returned, and an empty stream yields no lines. -/

/-- Function `dropCR` from `bufio`: strips one trailing carriage return. -/
def dropCR (l : List Char) : List Char :=
  if l ≠ [] ∧ l.getLast? = some '\r' then l.dropLast else l

/-- Line-splitting of `bufio.Scanner` under `bufio.ScanLines`;
`acc` accumulates the current line in reverse. -/
def scanLinesAux : List Char → List Char → List (List Char)
  | [], acc => if acc.isEmpty then [] else [dropCR acc.reverse]
  | c :: rest, acc =>
      if c = '\n' then dropCR acc.reverse :: scanLinesAux rest []
      else scanLinesAux rest (c :: acc)

def scanLines (cs : List Char) : List (List Char) := scanLinesAux cs []

/-- Model of `strings.HasSuffix(ld.opt.rdfFile, ".gz")`. -/
def hasSuffixGz (path : List Char) : Bool :=
  ['.', 'g', 'z'].isSuffixOf path

/-- The record sequence produced by `mapStage`'s scanner setup:
`if !strings.HasSuffix(ld.opt.rdfFile, ".gz")` the raw stream is
line-split directly, otherwise a gzip decompressor (`gzip.NewReader`,
external, modelled by the `gunzip` argument) is wrapped around the byte
stream before line-splitting. -/
def sourceRecords (gunzip : List Char → List Char) (path : List Char)
    (content : List Char) : List (List Char) :=
  if !hasSuffixGz path then scanLines content
  else scanLines (gunzip content)

/-- C7: The scanner wraps the byte stream in the gzip decompressor
before line-splitting iff the path ends in `".gz"`, and otherwise
line-splits the raw stream directly; consequently, for any
compressor/decompressor pair that round-trips, a `.gz` source holding the
compressed form of some content and a non-`.gz` source holding that
content verbatim yield identical record sequences. -/
theorem sourceRecords_decompress (gunzip gzipC : List Char → List Char)
    (p q content c : List Char) (hp : hasSuffixGz p = true)
    (hq : hasSuffixGz q = false) (hround : gunzip (gzipC c) = c) :
    sourceRecords gunzip p content = scanLines (gunzip content) ∧
    sourceRecords gunzip q content = scanLines content ∧
    sourceRecords gunzip p (gzipC c) = sourceRecords gunzip q c := by
  simp [sourceRecords, hp, hq, hround]

theorem sourceRecords_decompress_witness :
    sourceRecords id ['.', 'g', 'z'] ['x', '\n', 'y'] =
      scanLines (id ['x', '\n', 'y']) ∧
    sourceRecords id ['a'] ['x', '\n', 'y'] = scanLines ['x', '\n', 'y'] ∧
    sourceRecords id ['.', 'g', 'z'] (id ['x', '\n', 'y']) =
      sourceRecords id ['a'] ['x', '\n', 'y'] :=
  sourceRecords_decompress id id ['.', 'g', 'z'] ['a'] ['x', '\n', 'y']
    ['x', '\n', 'y'] (by decide) (by decide) rfl

end Bulkloader

namespace Edgraph

/-! Access-control subsystem (the `edgraph` ACL-cache file).

Types from the external `ee/acl` package are modelled by the fields this
file uses: `acl.Operation` (`Code int32`, `Name string`), `acl.Acl`
(`Predicate`, `Regex`, `Perm int32`), `acl.Group` (`GroupID`, `Acls` — a
JSON blob).  `int32` permission values are modelled by their bit patterns
as `Nat`, for which bitwise-and agrees with the two's-complement bit
pattern.  Go maps are modelled as association lists (Go map iteration
order, used when flattening `predRegexPerms` into the rule slice, is
unspecified; the model uses insertion order).  A compiled
`*regexp.Regexp` is modelled by its match function, and the external
`json.Unmarshal` / `regexp.Compile` / `x.IsAclPredicate` calls are
parameters of the embedding. -/

/-- Model of `acl.Operation`. -/
structure Operation where
  code : Nat
  name : String

/-- Model of `acl.Acl`: one ACL rule of a group's blob. -/
structure Acl where
  predicate : String
  regex : String
  perm : Nat

/-- Model of `acl.Group`: a group with its raw ACL JSON blob. -/
structure Group where
  groupID : String
  acls : String

/-- Model of `predRegexRule`: a compiled predicate regex together with the
per-group permissions attached to it. -/
structure PredRegexRule where
  predRegex : String → Bool
  groupPerms : List (String × Nat)

/-- Model of `aclCache` (without the lock): the predicate→(group→perm)
map and the regex-rule list. -/
structure AclCache where
  predPerms : List (String × List (String × Nat))
  predRegexRules : List PredRegexRule

/-- Function `hasRequiredAccess`: whether any of the caller's groups has a
permission in `groupPerms` whose bits overlap the operation's code
(`groupPerm&operation.Code != 0`). -/
def hasRequiredAccess (groupPerms : List (String × Nat))
    (groups : List String) (operation : Operation) : Bool :=
  groups.any (fun group =>
    match groupPerms.lookup group with
    | some groupPerm => groupPerm &&& operation.code != 0
    | none => false)

/-- Function `aclCache.authorizePredicate`; `none` models a `nil` error,
`some msg` an error.  `x.IsAclPredicate` (external package `x`) is the
`isAclPredicate` parameter.  Go's single pass over `predRegexRules`, which
sets `predRegexMatch` and returns `nil` at the first matching rule that
grants access, is flattened into one scan for a matching-and-granting rule
and one scan for any matching rule. -/
def authorizePredicate (isAclPredicate : String → Bool) (cache : AclCache)
    (groups : List String) (predicate : String) (operation : Operation) :
    Option String :=
  if isAclPredicate predicate then
    some ("only groot is allowed to access the ACL predicate: " ++ predicate)
  else
    let singlePredMatch := (cache.predPerms.lookup predicate).isSome
    let singleAllow :=
      match cache.predPerms.lookup predicate with
      | some groupPerms => hasRequiredAccess groupPerms groups operation
      | none => false
    if singleAllow then none
    else if cache.predRegexRules.any (fun r =>
        r.predRegex predicate && hasRequiredAccess r.groupPerms groups operation)
      then none
    else if singlePredMatch ||
        cache.predRegexRules.any (fun r => r.predRegex predicate) then
      some ("unauthorized to do " ++ operation.name ++ " on predicate " ++
        predicate)
    else none

/-- C9: `authorizePredicate` always rejects an ACL-reserved predicate,
regardless of the caller's groups; for every other predicate it allows the
operation whenever no exact-predicate rule and no regex rule matches the
predicate (fail open); and it returns an error precisely when at least one
rule matches the predicate yet neither the exact rule nor any matching
regex rule grants the requested operation to any of the caller's
groups. -/
theorem authorizePredicate_spec (isAcl : String → Bool) (cache : AclCache)
    (groups : List String) (predicate : String) (op : Operation) :
    (isAcl predicate = true →
      authorizePredicate isAcl cache groups predicate op =
        some ("only groot is allowed to access the ACL predicate: " ++
          predicate)) ∧
    (isAcl predicate = false →
      cache.predPerms.lookup predicate = none →
      cache.predRegexRules.any (fun r => r.predRegex predicate) = false →
      authorizePredicate isAcl cache groups predicate op = none) ∧
    (isAcl predicate = false →
      ((authorizePredicate isAcl cache groups predicate op).isSome ↔
        ((cache.predPerms.lookup predicate).isSome = true ∨
          cache.predRegexRules.any (fun r => r.predRegex predicate) = true) ∧
        (match cache.predPerms.lookup predicate with
          | some gp => hasRequiredAccess gp groups op
          | none => false) = false ∧
        cache.predRegexRules.any (fun r =>
          r.predRegex predicate &&
            hasRequiredAccess r.groupPerms groups op) = false)) := by
  refine ⟨fun h => by simp [authorizePredicate, h], fun h h1 h2 => ?_,
    fun h => ?_⟩
  · have h3 : cache.predRegexRules.any (fun r =>
        r.predRegex predicate &&
          hasRequiredAccess r.groupPerms groups op) = false := by
      rw [List.any_eq_false] at h2 ⊢
      intro r hr
      simp [h2 r hr]
    simp [authorizePredicate, h, h1, h2, h3]
  · rcases hl : cache.predPerms.lookup predicate with _ | gp <;>
      simp only [authorizePredicate, h, Bool.false_eq_true, if_false, hl,
        Option.isSome_none, Option.isSome_some] <;>
      rcases hany : cache.predRegexRules.any (fun r =>
        r.predRegex predicate &&
          hasRequiredAccess r.groupPerms groups op) with _ | _
    · rcases hm : cache.predRegexRules.any (fun r => r.predRegex predicate)
        with _ | _ <;> simp [hany, hm]
    · have hm : cache.predRegexRules.any (fun r => r.predRegex predicate)
          = true := by
        rw [List.any_eq_true] at hany ⊢
        obtain ⟨r, hr, hr'⟩ := hany
        exact ⟨r, hr, (Bool.and_eq_true _ _ |>.mp hr').1⟩
      simp [hany, hm]
    · rcases hg : hasRequiredAccess gp groups op with _ | _ <;>
        simp [hany, hg]
    · rcases hg : hasRequiredAccess gp groups op with _ | _ <;>
        simp [hany, hg]

theorem authorizePredicate_spec_witness :
    (authorizePredicate (fun p => p == "dgraph.group.acl")
      ⟨[("friend", [("dev", 4)])], []⟩ ["dev"] "dgraph.group.acl"
      ⟨4, "Read"⟩ =
      some ("only groot is allowed to access the ACL predicate: " ++
        "dgraph.group.acl")) ∧
    (authorizePredicate (fun p => p == "dgraph.group.acl")
      ⟨[("friend", [("dev", 4)])], []⟩ ["dev"] "name" ⟨4, "Read"⟩ =
      none) := by
  have h1 := authorizePredicate_spec (fun p => p == "dgraph.group.acl")
    ⟨[("friend", [("dev", 4)])], []⟩ ["dev"] "dgraph.group.acl" ⟨4, "Read"⟩
  have h2 := authorizePredicate_spec (fun p => p == "dgraph.group.acl")
    ⟨[("friend", [("dev", 4)])], []⟩ ["dev"] "name" ⟨4, "Read"⟩
  exact ⟨h1.1 (by decide), h2.2.1 (by decide) (by decide) (by decide)⟩

/-! Model of `aclCache.update`.  The two Go maps built inside `update`
(`predPerms` and `predRegexPerms`) are association lists; `upsert` is Go
map assignment.  `json.Unmarshal` of a group's blob is the `unmarshal`
parameter (`none` models an unmarshal error), `regexp.Compile` is the
`compile` parameter (`none` models a compile error). -/

/-- Go map assignment `m[gid] = perm` on an association list. -/
def upsert (m : List (String × Nat)) (gid : String) (perm : Nat) :
    List (String × Nat) :=
  match m with
  | [] => [(gid, perm)]
  | (g, p) :: rest =>
      if g = gid then (g, perm) :: rest else (g, p) :: upsert rest gid perm

/-- The `len(acl.Predicate) > 0` branch of `update`'s inner loop:
if the predicate already has a submap, set the group's permission in it,
otherwise create a fresh singleton submap. -/
def addPredPerm (predPerms : List (String × List (String × Nat)))
    (pred gid : String) (perm : Nat) :
    List (String × List (String × Nat)) :=
  match predPerms with
  | [] => [(pred, [(gid, perm)])]
  | (p, gp) :: rest =>
      if p = pred then (p, upsert gp gid perm) :: rest
      else (p, gp) :: addPredPerm rest pred gid perm

/-- The `len(acl.Regex) > 0` branch of `update`'s inner loop: if the regex
string is already a key of `predRegexPerms`, set the group's permission in
the existing rule; otherwise compile the regex — skipping the entry
(`continue`) when compilation fails — and insert a fresh rule. -/
def addRegexPerm (compile : String → Option (String → Bool))
    (regexPerms : List (String × PredRegexRule)) (regex gid : String)
    (perm : Nat) : List (String × PredRegexRule) :=
  match regexPerms with
  | [] =>
      match compile regex with
      | none => []
      | some m => [(regex, ⟨m, [(gid, perm)]⟩)]
  | (r, rule) :: rest =>
      if r = regex then
        (r, ⟨rule.predRegex, upsert rule.groupPerms gid perm⟩) :: rest
      else (r, rule) :: addRegexPerm compile rest regex gid perm

/-- The state threaded through `update`'s loops: the `predPerms` map under
construction and the `predRegexPerms` map under construction. -/
abbrev UpdState :=
  List (String × List (String × Nat)) × List (String × PredRegexRule)

/-- One iteration of `update`'s inner loop over a group's `acls`. -/
def applyAcl (compile : String → Option (String → Bool)) (st : UpdState)
    (gid : String) (a : Acl) : UpdState :=
  if a.predicate.length > 0 then
    (addPredPerm st.1 a.predicate gid a.perm, st.2)
  else if a.regex.length > 0 then
    (st.1, addRegexPerm compile st.2 a.regex gid a.perm)
  else st

/-- One iteration of `update`'s outer loop over `groups`: a group whose
blob fails to unmarshal is skipped (`glog.Errorf` + `continue`). -/
def applyGroup (unmarshal : String → Option (List Acl))
    (compile : String → Option (String → Bool)) (st : UpdState)
    (g : Group) : UpdState :=
  match unmarshal g.acls with
  | none => st
  | some acls => acls.foldl (fun st a => applyAcl compile st g.groupID a) st

/-- Function `aclCache.update`: builds `predPerms` and `predRegexPerms`
from scratch out of `groups`, flattens the regex map into a rule slice,
and assigns both fields of the cache wholesale (under the write lock);
the previous cache contents (`old`) do not flow into the result. -/
def update (unmarshal : String → Option (List Acl))
    (compile : String → Option (String → Bool)) (old : AclCache)
    (groups : List Group) : AclCache :=
  let st := groups.foldl (applyGroup unmarshal compile) (([], []) : UpdState)
  { predPerms := st.1, predRegexRules := st.2.map Prod.snd }

/-- Every key of the regex map built by `addRegexPerm` compiled
successfully, provided that already held before the call. -/
theorem addRegexPerm_keys (compile : String → Option (String → Bool))
    (m : List (String × PredRegexRule)) (regex gid : String) (perm : Nat)
    (hm : ∀ p ∈ m, (compile p.1).isSome = true) :
    ∀ p ∈ addRegexPerm compile m regex gid perm,
      (compile p.1).isSome = true := by
  induction m with
  | nil =>
      intro p hp
      rcases hc : compile regex with _ | f
      · rw [addRegexPerm, hc] at hp
        exact absurd hp (List.not_mem_nil p)
      · rw [addRegexPerm, hc] at hp
        rw [List.mem_singleton.mp hp]
        simp [hc]
  | cons hd tl ih =>
      intro p hp
      obtain ⟨r, rule⟩ := hd
      rw [addRegexPerm] at hp
      by_cases hr : r = regex
      · rw [if_pos hr] at hp
        rcases List.mem_cons.mp hp with hp' | hp'
        · rw [hp']
          exact hm (r, rule) (List.mem_cons_self _ _)
        · exact hm p (List.mem_cons_of_mem _ hp')
      · rw [if_neg hr] at hp
        rcases List.mem_cons.mp hp with hp' | hp'
        · rw [hp']
          exact hm (r, rule) (List.mem_cons_self _ _)
        · exact ih (fun q hq => hm q (List.mem_cons_of_mem _ hq)) p hp'

/-- A regex whose compilation fails is never a key of the map, so the
found-branch cannot trigger and `addRegexPerm` is the identity. -/
theorem addRegexPerm_skip (compile : String → Option (String → Bool))
    (m : List (String × PredRegexRule)) (regex gid : String) (perm : Nat)
    (hm : ∀ p ∈ m, (compile p.1).isSome = true)
    (hc : compile regex = none) :
    addRegexPerm compile m regex gid perm = m := by
  induction m with
  | nil => rw [addRegexPerm, hc]
  | cons hd tl ih =>
      obtain ⟨r, rule⟩ := hd
      rw [addRegexPerm]
      have hr : r ≠ regex := by
        intro h
        have := hm (r, rule) (List.mem_cons_self _ _)
        rw [h, hc] at this
        exact Bool.noConfusion this
      rw [if_neg hr, ih (fun q hq => hm q (List.mem_cons_of_mem _ hq))]

theorem applyAcl_keys (compile : String → Option (String → Bool))
    (st : UpdState) (gid : String) (a : Acl)
    (hst : ∀ p ∈ st.2, (compile p.1).isSome = true) :
    ∀ p ∈ (applyAcl compile st gid a).2, (compile p.1).isSome = true := by
  rw [applyAcl]
  by_cases h1 : a.predicate.length > 0
  · rw [if_pos h1]
    exact hst
  · rw [if_neg h1]
    by_cases h2 : a.regex.length > 0
    · rw [if_pos h2]
      exact addRegexPerm_keys compile st.2 a.regex gid a.perm hst
    · rw [if_neg h2]
      exact hst

theorem foldl_applyAcl_keys (compile : String → Option (String → Bool))
    (gid : String) (acls : List Acl) (st : UpdState)
    (hst : ∀ p ∈ st.2, (compile p.1).isSome = true) :
    ∀ p ∈ (acls.foldl (fun st a => applyAcl compile st gid a) st).2,
      (compile p.1).isSome = true := by
  induction acls generalizing st with
  | nil => exact hst
  | cons a tl ih =>
      exact ih (applyAcl compile st gid a)
        (applyAcl_keys compile st gid a hst)

theorem foldl_applyGroup_keys (unmarshal : String → Option (List Acl))
    (compile : String → Option (String → Bool)) (gs : List Group)
    (st : UpdState) (hst : ∀ p ∈ st.2, (compile p.1).isSome = true) :
    ∀ p ∈ (gs.foldl (applyGroup unmarshal compile) st).2,
      (compile p.1).isSome = true := by
  induction gs generalizing st with
  | nil => exact hst
  | cons g tl ih =>
      refine ih (applyGroup unmarshal compile st g) ?_
      rw [applyGroup]
      rcases unmarshal g.acls with _ | acls
      · exact hst
      · exact foldl_applyAcl_keys compile g.groupID acls st hst

/-- C10: in `aclCache.update`, a group whose ACL blob fails JSON
unmarshalling is skipped without aborting the update (removing it from the
argument changes nothing); an ACL entry carrying a regex that fails to
compile is skipped (processing it leaves the under-construction state
unchanged — the hypothesis that every key already in the regex map
compiled successfully holds of every state `update` reaches, per the third
conjunct); and the cache fields are replaced wholesale, so the result is
independent of the previous cache contents and rules from earlier updates
do not survive. -/
theorem aclCache_update_spec (unmarshal : String → Option (List Acl))
    (compile : String → Option (String → Bool)) (old1 old2 : AclCache)
    (gs gs1 gs2 : List Group) (g : Group) (gid : String) (bad : Acl)
    (st : UpdState)
    (hum : unmarshal g.acls = none)
    (hbadp : bad.predicate = "")
    (hbadc : compile bad.regex = none)
    (hkeys : ∀ p ∈ st.2, (compile p.1).isSome = true) :
    update unmarshal compile old1 (gs1 ++ g :: gs2) =
      update unmarshal compile old1 (gs1 ++ gs2) ∧
    applyAcl compile st gid bad = st ∧
    (∀ p ∈ (gs.foldl (applyGroup unmarshal compile)
        (([], []) : UpdState)).2, (compile p.1).isSome = true) ∧
    update unmarshal compile old1 gs = update unmarshal compile old2 gs := by
  refine ⟨?_, ?_, ?_, rfl⟩
  · rw [update, update, List.foldl_append, List.foldl_append, List.foldl_cons]
    rw [applyGroup, hum]
  · rw [applyAcl, hbadp]
    by_cases h2 : ("" : String).length > 0
    · exact absurd h2 (by decide)
    · rw [if_neg h2]
      by_cases h3 : bad.regex.length > 0
      · rw [if_pos h3,
          addRegexPerm_skip compile st.2 bad.regex gid bad.perm hkeys hbadc]
      · rw [if_neg h3]
  · exact foldl_applyGroup_keys unmarshal compile gs ([], [])
      (by intro p hp; exact absurd hp (List.not_mem_nil p))

theorem aclCache_update_spec_witness :
    update (fun b => if b == "bad" then none else some [⟨"friend", "", 4⟩])
        (fun _ => none) ⟨[("zombie", [("dev", 7)])], []⟩
        [⟨"dev", "bad"⟩, ⟨"sre", "ok"⟩] =
      update (fun b => if b == "bad" then none else some [⟨"friend", "", 4⟩])
        (fun _ => none) ⟨[("zombie", [("dev", 7)])], []⟩ [⟨"sre", "ok"⟩] ∧
    applyAcl (fun _ => none) (([], []) : UpdState) "dev" ⟨"", "^us.*$", 4⟩ =
      (([], []) : UpdState) ∧
    update (fun b => if b == "bad" then none else some [⟨"friend", "", 4⟩])
        (fun _ => none) ⟨[("zombie", [("dev", 7)])], []⟩ [⟨"sre", "ok"⟩] =
      update (fun b => if b == "bad" then none else some [⟨"friend", "", 4⟩])
        (fun _ => none) ⟨[], []⟩ [⟨"sre", "ok"⟩] := by
  have h := aclCache_update_spec
    (fun b => if b == "bad" then none else some [⟨"friend", "", 4⟩])
    (fun _ => none) ⟨[("zombie", [("dev", 7)])], []⟩ ⟨[], []⟩
    [⟨"sre", "ok"⟩] [] [⟨"sre", "ok"⟩] ⟨"dev", "bad"⟩ "dev" ⟨"", "^us.*$", 4⟩
    (([], []) : UpdState) rfl rfl rfl
    (by intro p hp; exact absurd hp (List.not_mem_nil p))
  exact ⟨h.1, h.2.1, h.2.2.2⟩

end Edgraph
